import Mathlib

/-!
Verification of the molten routing core (`molten/router.py`) and the
query-parameter collaborator (`molten/http/query_params.py`).

The template compiler `_compile_route_template` builds a regular-expression
string and hands it to Python's `re.compile`; `Router.match` then calls
`Pattern.match` and `Match.groupdict`.  We embed this pipeline faithfully:

* `compileRouteTemplate` is a direct port of `_compile_route_template`
  producing the very same pattern string;
* `reParse` models `re.compile` on the fragment of regular-expression syntax
  that compiled templates use (literal characters, `.`, `[^...]` classes with
  `+`, named groups `(?P<name>...)`, and the anchors `^`/`$`); on any other
  construct it returns `none`, modelling only the fragment we reason about;
* `mAll` enumerates, in Python's backtracking order (greedy quantifiers,
  leftmost alternative first), every way a parsed pattern can match a prefix
  of the input, and `reMatchDict` takes the first, mirroring `Pattern.match`
  followed by `groupdict`.  Python's `$` matches at the end of the string and
  also just before a string-final newline, which `RE.dollar` reproduces.
-/

/-- Capture dictionary: the result of `Match.groupdict`, an insertion-ordered
mapping from group name to last captured value. -/
abbrev Caps := List (String × String)

/-- Set a key in a capture dictionary, keeping the position of an existing
key (Python `dict` assignment). -/
def setCap (caps : Caps) (k v : String) : Caps :=
  match caps with
  | [] => [(k, v)]
  | (k', v') :: rest => if k' = k then (k, v) :: rest else (k', v') :: setCap rest k v

/-- The fragment of Python regular expressions that compiled route templates
live in.  `ncls cs` is the negated character class `[^cs]`; `plusNcls cs` is
`[^cs]+` (greedy); `dollar` is the `$` anchor. -/
inductive RE where
  | eps
  | ch (c : Char)
  | dot
  | ncls (cs : List Char)
  | plusNcls (cs : List Char)
  | group (g : String) (a : RE)
  | seq (a b : RE)
  | dollar
deriving DecidableEq, Repr

/-- All ways `r` can match a prefix of `l`, in Python's backtracking order
(first element = the match `re` would commit to).  Each result is the number
of consumed characters together with the capture dictionary.  A greedy
`[^cs]+` tries the longest feasible prefix first; `$` is zero-width and
succeeds at the end of the input or just before a final newline, exactly as
Python's `$`. -/
def mAll : RE → List Char → Caps → List (Nat × Caps)
  | .eps, _, caps => [(0, caps)]
  | .ch c, l, caps =>
    match l with
    | [] => []
    | x :: _ => if x = c then [(1, caps)] else []
  | .dot, l, _caps =>
    match l with
    | [] => []
    | x :: _ => if x = '\n' then [] else [(1, _caps)]
  | .ncls cs, l, caps =>
    match l with
    | [] => []
    | x :: _ => if cs.contains x then [] else [(1, caps)]
  | .plusNcls cs, l, caps =>
    (List.range (l.takeWhile (fun c => !(cs.contains c))).length).map
      (fun i => ((l.takeWhile (fun c => !(cs.contains c))).length - i, caps))
  | .group g a, l, caps =>
    (mAll a l caps).map (fun p => (p.1, setCap p.2 g (String.mk (l.take p.1))))
  | .seq a b, l, caps =>
    (mAll a l caps).flatMap
      (fun p => (mAll b (l.drop p.1) p.2).map (fun q => (p.1 + q.1, q.2)))
  | .dollar, l, caps => if l = [] ∨ l = ['\n'] then [(0, caps)] else []

/-- `Pattern.match(path)` followed by `groupdict()`: the capture dictionary of
the first match in backtracking order, or `none` when the pattern does not
match at position 0.  (Python's `match` anchors at the start only; the
compiled patterns carry their own `^`/`$`.) -/
def reMatchDict (r : RE) (s : String) : Option Caps :=
  match mAll r s.data [] with
  | [] => none
  | (_, caps) :: _ => some caps

/-- Characters allowed in a group name (Python requires an identifier). -/
def nameChar (c : Char) : Bool := c.isAlphanum || c = '_'

/-- Characters we accept verbatim inside a `[^...]` class (no escapes,
ranges or nested classes: outside the modelled fragment). -/
def plainClsChar (c : Char) : Bool :=
  !(c == '\\' || c == '-' || c == '[' || c == ']' || c == '^')

/-- Parse a sequence of atoms (with optional `+` quantifier on a negated
class) up to `)` or the end of the pattern.  Models `re.compile` on the
fragment used by compiled route templates; any construct outside the
fragment parses to `none`.  `fuel` only bounds the recursion depth; every
recursive call consumes at least one character, so `length + 1` fuel always
suffices. -/
def parseSeq : Nat → List Char → Option (RE × List Char)
  | 0, _ => none
  | fuel + 1, l =>
    match l with
    | [] => some (.eps, [])
    | ')' :: _ => some (.eps, l)
    | c :: rest =>
      let atomRes : Option (RE × List Char) :=
        if c = '(' then
          match rest with
          | '?' :: 'P' :: '<' :: rest2 =>
            let nm := rest2.takeWhile (fun d => d != '>')
            let rest3 := rest2.drop nm.length
            if !nm.isEmpty && nm.all nameChar then
              match rest3 with
              | '>' :: rest4 =>
                match parseSeq fuel rest4 with
                | some (inner, ')' :: rest5) => some (.group (String.mk nm) inner, rest5)
                | _ => none
              | _ => none
            else none
          | _ => none
        else if c = '[' then
          match rest with
          | '^' :: rest2 =>
            let cls := rest2.takeWhile (fun d => d != ']')
            let rest3 := rest2.drop cls.length
            if !cls.isEmpty && cls.all plainClsChar then
              match rest3 with
              | ']' :: rest4 => some (.ncls cls, rest4)
              | _ => none
            else none
          | _ => none
        else if c = '.' then some (.dot, rest)
        else if c = '$' then some (.dollar, rest)
        else if c = '^' ∨ c = '\\' ∨ c = '\x7b' ∨ c = '\x7d' ∨ c = '|' ∨
                c = '+' ∨ c = '*' ∨ c = '?' then none
        else some (.ch c, rest)
      match atomRes with
      | none => none
      | some (a, rest') =>
        match rest' with
        | '+' :: rest2 =>
          match a with
          | .ncls cs =>
            match parseSeq fuel rest2 with
            | some (tl, rem) => some (.seq (.plusNcls cs) tl, rem)
            | none => none
          | _ => none
        | '*' :: _ => none
        | '?' :: _ => none
        | _ =>
          match parseSeq fuel rest' with
          | some (tl, rem) => some (.seq a tl, rem)
          | none => none

/-- Names of the groups defined in a parsed pattern, in definition order. -/
def groupNames : RE → List String
  | .group g a => g :: groupNames a
  | .seq a b => groupNames a ++ groupNames b
  | _ => []

/-- `xs` has a repeated element (used for `re.compile`'s rejection of
duplicate group names). -/
def hasDup : List String → Bool
  | [] => false
  | x :: xs => xs.contains x || hasDup xs

/-- Model of `re.compile` on the modelled fragment.  A leading `^` is
stripped (it is a no-op under match-at-0); `re.compile` rejects duplicate
group names, which we reproduce via the `hasDup` check. -/
def reParse (s : String) : Option RE :=
  let l := s.data
  let l2 := match l with
    | '^' :: t => t
    | t => t
  match parseSeq (l.length + 1) l2 with
  | some (r, []) => if hasDup (groupNames r) then none else some r
  | _ => none

/-- Python's `template.split("/")` for the one-character separator `/`:
splits at every separator occurrence, keeping empty segments, and yields
`[""]` for the empty string. -/
def splitSlash : List Char → List (List Char)
  | [] => [[]]
  | c :: rest =>
    match splitSlash rest with
    | [] => [[c]]
    | seg :: segs => if c = '/' then [] :: seg :: segs else (c :: seg) :: segs

/-- The pattern text one segment contributes, port of the loop body of
`_compile_route_template`: a segment that starts with `\x7b` and ends with
`\x7d` (Python `segment.startswith("\x7b") and segment.endswith("\x7d")`)
becomes `/(?P<name>[^/]+)` where `name` is the segment minus its first and
last characters (`segment[1:-1]`); any other segment is copied after `/`
verbatim, unescaped. -/
def segPattern (seg : List Char) : List Char :=
  if seg.head? = some '\x7b' ∧ seg.getLast? = some '\x7d' then
    "/(?P<".data ++ (seg.drop 1).dropLast ++ ">[^/]+)".data
  else
    '/' :: seg

/-- Direct port of `_compile_route_template` (router.py lines 90-101): split
the template on `/`, drop the leading segment (`split("/")[1:]`), append
each segment's contribution left to right, and anchor the result with `^`
and `$` (`f"^{re_template}$"`). -/
def compileRouteTemplate (template : String) : String :=
  String.mk ('^' :: ((splitSlash template.data).tail.flatMap segPattern) ++ ['$'])

/-- The matcher a template compiles to, applied to one path: compile the
template to its pattern string, parse the pattern, and take the first match.
`none` also covers patterns outside the modelled regex fragment. -/
def templateTest (t path : String) : Option Caps :=
  match reParse (compileRouteTemplate t) with
  | none => none
  | some r => reMatchDict r path

/-- Recognizes the `eps` pattern (parsers append one after the final atom). -/
def isEpsRE : RE → Bool
  | .eps => true
  | _ => false

/-- The sequence spine of the pattern ends in the `$` anchor (possibly
followed by the trailing `eps` the parser appends): every compiled route
pattern has this shape, which is what makes it end-anchored. -/
def anchored : RE → Bool
  | .dollar => true
  | .group _ a => anchored a
  | .seq a b => anchored b || (anchored a && isEpsRE b)
  | _ => false

/-- Characters the pattern parser treats as a plain one-character literal
atom (no metacharacter role at all). -/
def plainAtomChar (c : Char) : Bool :=
  !(c == '(' || c == ')' || c == '[' || c == ']' || c == '.' || c == '$' || c == '^' ||
    c == '\\' || c == '\x7b' || c == '\x7d' || c == '|' || c == '+' || c == '*' || c == '?')

/-- Plain characters plus the `.` metacharacter: the alphabet of literal
template bodies we characterize completely. -/
def plainOrDot (c : Char) : Bool := plainAtomChar c || c == '.'

/-- The atom one such character compiles to: `.` becomes the any-character
pattern, everything else a literal. -/
def atomOf (c : Char) : RE := if c = '.' then .dot else .ch c

/-- The pattern a purely literal template body compiles to: one atom per
character, closed by the `$` anchor. -/
def chainOf : List Char → RE
  | [] => .seq .dollar .eps
  | c :: seg => .seq (atomOf c) (chainOf seg)

/-- Whether a path fits a literal template body character by character: `.`
accepts any character except newline, any other character only itself, and
at the end the `$` anchor accepts the end of the path or one final
newline. -/
def fitsFull : List Char → List Char → Bool
  | [], l => l.isEmpty || l == ['\n']
  | _ :: _, [] => false
  | c :: seg, x :: l => (if c = '.' then x != '\n' else x == c) && fitsFull seg l

/-- An individual route (router.py `Route`).  The handler is opaque to the
core; the only thing the code ever reads from it is `handler.__name__`,
which we carry as `handlerName`. -/
structure Route where
  template : String
  handlerName : String
  method : String
  name : String
deriving DecidableEq, Repr

/-- `Route.__init__(template, handler, method="GET", name=None)`:
`self.name = name or handler.__name__`, so a `None` name and a falsy
(empty-string) name both fall back to the handler's declared identifier. -/
def Route.make (template : String) (handlerName : String)
    (method : String := "GET") (name : Option String := none) : Route :=
  { template := template, handlerName := handlerName, method := method,
    name := match name with
            | none => handlerName
            | some s => if s = "" then handlerName else s }

/-- `RouteLike = Union[Route, Include]`: the things one can register.
`incl pfx routes` is `Include(prefix, routes)`. -/
inductive RouteLike where
  | route (r : Route)
  | incl (pfx : String) (routes : List RouteLike)

/-- Lookup in the name index (Python `dict` with unique keys). -/
def lookupName (d : List (String × Route)) (k : String) : Option Route :=
  match d with
  | [] => none
  | (k', v) :: rest => if k' = k then some v else lookupName rest k

/-- `defaultdict(list)` read: the list stored under a key, `[]` when the key
has never been touched. -/
def lookupListD (d : List (String × List α)) (k : String) : List α :=
  match d with
  | [] => []
  | (k', v) :: rest => if k' = k then v else lookupListD rest k

/-- `defaultdict(list)`'s `d[k].insert(0, x)`: prepend to the bucket of an
existing key in place, or create the key (at the end, as Python dicts append
new keys) with a one-element bucket. -/
def insertFront (d : List (String × List α)) (k : String) (x : α) : List (String × List α) :=
  match d with
  | [] => [(k, [x])]
  | (k', v) :: rest => if k' = k then (k', x :: v) :: rest else (k', v) :: insertFront rest k x

/-- The Router's state: the name index `_routes_by_name`, the per-method
route lists `_routes_by_method` and the per-method compiled-pattern lists
`_route_res_by_method` (both defaultdicts, front-insertion). -/
structure Router where
  routesByName : List (String × Route)
  routesByMethod : List (String × List Route)
  routeResByMethod : List (String × List RE)
deriving DecidableEq, Repr

/-- `Router()` before any registration. -/
def routerEmpty : Router := ⟨[], [], []⟩

mutual
/-- `Router.add_route(route_like, prefix="")`.  Mirrors the Python statement
order: the duplicate-name check happens before any mutation; the name index
and the per-method route list are updated before the template is compiled,
so a pattern outside the modelled regex fragment (where `re.compile` would
raise, which we surface as the `"re.error"` outcome) leaves those two
structures already updated.  The returned pair is the router state when the
call returns or raises, together with the raised error (if any). -/
def addRoute (x : RouteLike) (pfx : String) (r : Router) : Router × Option String :=
  match x with
  | .incl p routes => addRoutes routes (pfx ++ p) r
  | .route rt =>
    match lookupName r.routesByName rt.name with
    | some _ => (r, some ("a route named " ++ rt.name ++ " is already registered"))
    | none =>
      let byName := r.routesByName ++ [(rt.name, rt)]
      let byMethod := insertFront r.routesByMethod rt.method rt
      match reParse (compileRouteTemplate (pfx ++ rt.template)) with
      | none =>
        ({ routesByName := byName, routesByMethod := byMethod,
           routeResByMethod := r.routeResByMethod }, some "re.error")
      | some re2 =>
        ({ routesByName := byName, routesByMethod := byMethod,
           routeResByMethod := insertFront r.routeResByMethod rt.method re2 }, none)

/-- `Router.add_routes(route_likes, prefix="")`: register each entry in
order; an error raised by one entry stops the loop, leaving the entries
after it unregistered. -/
def addRoutes (xs : List RouteLike) (pfx : String) (r : Router) : Router × Option String :=
  match xs with
  | [] => (r, none)
  | x :: rest =>
    match addRoute x pfx r with
    | (r', none) => addRoutes rest pfx r'
    | (r', some e) => (r', some e)
end

/-- The scan inside `Router.match`: walk `zip(routes, route_res)` front to
back and return the first route whose pattern matches, with its captures. -/
def findMatch (pairs : List (Route × RE)) (path : String) : Option (Route × Caps) :=
  match pairs with
  | [] => none
  | (rt, re2) :: rest =>
    match reMatchDict re2 path with
    | some caps => some (rt, caps)
    | none => findMatch rest path

/-- `Router.match(method, path)`: look up the method's two lists (empty for
an unseen method) and scan them zipped, front to back; `none` when nothing
matches. -/
def Router.matchRoute (r : Router) (method path : String) : Option (Route × Caps) :=
  findMatch ((lookupListD r.routesByMethod method).zip
             (lookupListD r.routeResByMethod method)) path

/-- `ParamMissing(name)` from molten/errors.py: the error raised by the
query-parameter accessor on a missing key. -/
structure ParamMissing where
  key : String
deriving DecidableEq, Repr

/-- Modelled from the spec: `MultiDict` (molten/common.py, not under src/)
backs `QueryParams` with "a mapping from parameter name to list-of-values
(insertion order preserved per key)"; a name that was never inserted has no
values, which the code observes as an empty list (its `[-1]` lookup raises
`IndexError`, translated to `ParamMissing`).  We model the backing store
`_data` as an association list read with an empty-list default. -/
structure QueryParams where
  data : List (String × List String)

/-- Values stored under a name in the backing `MultiDict` (`_data[name]`
with the empty list for an absent name). -/
def QueryParams.values (q : QueryParams) (name : String) : List String :=
  lookupListD q.data name

/-- `QueryParams.__getitem__`: `self._data[name][-1]`, with the `IndexError`
on an empty value list re-raised as `ParamMissing(name)`. -/
def QueryParams.getItem (q : QueryParams) (name : String) : Except ParamMissing String :=
  match (q.values name).getLast? with
  | some v => .ok v
  | none => .error ⟨name⟩

/-- `QueryParams.get(name, default=None)`: `self[name]`, with `ParamMissing`
caught and turned into the supplied default. -/
def QueryParams.get (q : QueryParams) (name : String) (dflt : Option String := none) :
    Option String :=
  match q.getItem name with
  | .ok v => some v
  | .error _ => dflt

/-- Captures of the first result in backtracking order. -/
def firstCaps (rs : List (Nat × Caps)) : Option Caps :=
  rs.head?.map (fun p => p.2)

lemma reMatchDict_eq_firstCaps (r : RE) (s : String) :
    reMatchDict r s = firstCaps (mAll r s.data []) := by
  unfold reMatchDict firstCaps
  cases mAll r s.data [] <;> rfl

lemma stringMk_data (s : String) : String.mk s.data = s := by
  cases s
  rfl

lemma string_empty_append (s : String) : "" ++ s = s := by
  cases s
  rfl

lemma addRoutes_singleton (x : RouteLike) (pfx : String) (r : Router) :
    addRoutes [x] pfx r = addRoute x pfx r := by
  rcases h : addRoute x pfx r with ⟨r', e⟩
  cases e <;> simp [addRoutes, h]

lemma findMatch_eq_none (pairs : List (Route × RE)) (path : String)
    (h : ∀ pr ∈ pairs, reMatchDict pr.2 path = none) : findMatch pairs path = none := by
  induction pairs with
  | nil => rfl
  | cons p rest ih =>
    rcases p with ⟨rt, re2⟩
    have h0 : reMatchDict re2 path = none := h (rt, re2) (List.mem_cons_self _ _)
    simpa [findMatch, h0] using ih (fun pr hpr => h pr (List.mem_cons_of_mem _ hpr))

/-- C10: constructing a `Route` with the empty string as its name behaves
exactly like omitting the name: both fall back to the handler's declared
identifier, so an explicit empty-string name is never kept. -/
theorem c10_empty_name_defaults (t h m : String) :
    Route.make t h m (some "") = Route.make t h m none ∧
    (Route.make t h m (some "")).name = h := by
  constructor <;> simp [Route.make]

/-- C9: in the query-parameter utility, the indexed accessor returns the
last value stored for a key and raises `ParamMissing` when the key is absent
from the mapping, while `get name default` returns the last value when the
key is present and the supplied default (recovering from `ParamMissing`)
when it is absent. -/
theorem c9_query_param_accessors (q : QueryParams) (name : String) (dflt : Option String) :
    (q.values name = [] →
      q.getItem name = .error ⟨name⟩ ∧ q.get name dflt = dflt) ∧
    (∀ v, (q.values name).getLast? = some v →
      q.getItem name = .ok v ∧ q.get name dflt = some v) := by
  constructor
  · intro h
    have h0 : (q.values name).getLast? = none := by rw [h]; rfl
    constructor <;> simp [QueryParams.getItem, QueryParams.get, h0]
  · intro v hv
    constructor <;> simp [QueryParams.getItem, QueryParams.get, hv]

theorem c9_witness :
    ((QueryParams.mk [("a", ["1", "2"])]).getItem "b" = .error ⟨"b"⟩ ∧
      (QueryParams.mk [("a", ["1", "2"])]).get "b" (some "d") = some "d") ∧
    ((QueryParams.mk [("a", ["1", "2"])]).getItem "a" = .ok "2" ∧
      (QueryParams.mk [("a", ["1", "2"])]).get "a" none = some "2") :=
  ⟨(c9_query_param_accessors (QueryParams.mk [("a", ["1", "2"])]) "b" (some "d")).1 (by decide),
   (c9_query_param_accessors (QueryParams.mk [("a", ["1", "2"])]) "a" none).2 "2" (by decide)⟩

/-- C3: a group's prefix concatenates textually to the left of its entries'
templates, applied left to right through nesting: registering
`Include(p2, xs)` under outer prefix `p1` registers `xs` under `p1 ++ p2`
(and likewise one level deeper), and the concrete `Include("/api", ...)`
with a `/users/\x7bid\x7d` route registered under `"/v1"` matches
`/v1/api/users/42` with exactly the parameter mapping `id = "42"`. -/
theorem c3_prefix_flattening :
    (∀ (p1 p2 : String) (xs : List RouteLike) (r : Router),
      addRoute (.incl p2 xs) p1 r = addRoutes xs (p1 ++ p2) r) ∧
    (∀ (p1 p2 p3 : String) (xs : List RouteLike) (r : Router),
      addRoute (.incl p2 [.incl p3 xs]) p1 r = addRoutes xs (p1 ++ p2 ++ p3) r) ∧
    (addRoute (.incl "/api" [.route (Route.make "/users/\x7bid\x7d" "get_user")]) "/v1"
        routerEmpty).1.matchRoute "GET" "/v1/api/users/42" =
      some (Route.make "/users/\x7bid\x7d" "get_user", [("id", "42")]) := by
  refine ⟨fun p1 p2 xs r => by simp [addRoute], fun p1 p2 p3 xs r => ?_, ?_⟩
  · rw [show addRoute (.incl p2 [.incl p3 xs]) p1 r = addRoutes [.incl p3 xs] (p1 ++ p2) r
        from by simp [addRoute]]
    rw [addRoutes_singleton]
    simp [addRoute]
  · simp only [addRoutes, addRoute]
    decide

/-- C2: registering a route whose name is already in the name index fails
with the duplicate-route-name error regardless of the methods or templates
involved, while registering two routes with identical templates (even for
the same method) but distinct names succeeds. -/
theorem c2_duplicate_name_rejected_distinct_ok :
    (∀ (r : Router) (rt q : Route) (pfx : String),
      lookupName r.routesByName rt.name = some q →
      addRoute (.route rt) pfx r =
        (r, some ("a route named " ++ rt.name ++ " is already registered"))) ∧
    (∀ (A B : Route) (ra : RE),
      A.name ≠ B.name → B.template = A.template →
      reParse (compileRouteTemplate A.template) = some ra →
      (addRoutes [.route A, .route B] "" routerEmpty).2 = none) := by
  constructor
  · intro r rt q pfx h
    simp [addRoute, h]
  · intro A B ra hn ht hp
    simp only [addRoutes, addRoute, routerEmpty, lookupName, string_empty_append, hp, ht,
      List.nil_append]
    simp [lookupName, hn]

theorem c2_witness :
    (addRoute (.route (Route.make "/y" "hy" "POST" (some "a")))
        "" (Router.mk [("a", Route.make "/x" "hx" "GET" (some "a"))] [] []) =
      (Router.mk [("a", Route.make "/x" "hx" "GET" (some "a"))] [] [],
        some "a route named a is already registered")) ∧
    (addRoutes [.route (Route.make "/x" "ha" "GET" (some "a")),
                .route (Route.make "/x" "hb" "GET" (some "b"))] "" routerEmpty).2 = none :=
  ⟨(c2_duplicate_name_rejected_distinct_ok.1
      (Router.mk [("a", Route.make "/x" "hx" "GET" (some "a"))] [] [])
      (Route.make "/y" "hy" "POST" (some "a")) (Route.make "/x" "hx" "GET" (some "a")) ""
      (by decide)),
   (c2_duplicate_name_rejected_distinct_ok.2
      (Route.make "/x" "ha" "GET" (some "a")) (Route.make "/x" "hb" "GET" (some "b"))
      (.seq (.ch '/') (.seq (.ch 'x') (.seq .dollar .eps)))
      (by decide) rfl rfl)⟩

/-- C8: a registration that fails on a duplicate name leaves the router
exactly as it was before the call — name index, per-method route lists and
matcher lists untouched — and a batch registration stops at the failing
entry, registering none of the entries after it. -/
theorem c8_failed_registration_state (r : Router) (rt q : Route) (pfx : String)
    (rest : List RouteLike) (h : lookupName r.routesByName rt.name = some q) :
    addRoutes (.route rt :: rest) pfx r =
      (r, some ("a route named " ++ rt.name ++ " is already registered")) := by
  simp [addRoutes, addRoute, h]

theorem c8_witness :
    addRoutes [.route (Route.make "/y" "hy" "GET" (some "a")),
               .route (Route.make "/z" "hz" "GET" (some "c"))]
        "" (Router.mk [("a", Route.make "/x" "hx" "GET" (some "a"))]
             [("GET", [Route.make "/x" "hx" "GET" (some "a")])] [("GET", [RE.eps])]) =
      (Router.mk [("a", Route.make "/x" "hx" "GET" (some "a"))]
        [("GET", [Route.make "/x" "hx" "GET" (some "a")])] [("GET", [RE.eps])],
        some "a route named a is already registered") :=
  c8_failed_registration_state
    (Router.mk [("a", Route.make "/x" "hx" "GET" (some "a"))]
      [("GET", [Route.make "/x" "hx" "GET" (some "a")])] [("GET", [RE.eps])])
    (Route.make "/y" "hy" "GET" (some "a")) (Route.make "/x" "hx" "GET" (some "a")) ""
    [.route (Route.make "/z" "hz" "GET" (some "c"))] (by decide)

/-- C7: matching is method-scoped and signals no match with `none` rather
than an error: a route registered only under `POST` is never returned for
`GET`, a method with no registered routes yields `none`, and a method none
of whose matchers accept the path yields `none` — the same absence value in
all cases. -/
theorem c7_method_scoped_absence :
    (∀ (rt : Route) (path : String), rt.method = "POST" →
      (addRoute (.route rt) "" routerEmpty).1.matchRoute "GET" path = none) ∧
    (∀ (r : Router) (method path : String),
      lookupListD r.routesByMethod method = [] →
      r.matchRoute method path = none) ∧
    (∀ (r : Router) (method path : String),
      (∀ re2 ∈ lookupListD r.routeResByMethod method, reMatchDict re2 path = none) →
      r.matchRoute method path = none) := by
  refine ⟨?_, ?_, ?_⟩
  · intro rt path hm
    simp only [addRoute, routerEmpty, lookupName]
    cases hpar : reParse (compileRouteTemplate ("" ++ rt.template)) <;>
      simp [Router.matchRoute, insertFront, lookupListD, hm, findMatch]
  · intro r method path h
    simp [Router.matchRoute, h, findMatch]
  · intro r method path h
    exact findMatch_eq_none _ _ (fun pr hpr => h pr.2 (List.of_mem_zip hpr).2)

theorem c7_witness :
    (addRoute (.route (Route.make "/x" "h" "POST" (some "p"))) "" routerEmpty).1.matchRoute
        "GET" "/x" = none ∧
    routerEmpty.matchRoute "GET" "/nonexistent" = none ∧
    (Router.mk [("g", Route.make "/y" "hg" "GET" (some "g"))]
      [("GET", [Route.make "/y" "hg" "GET" (some "g")])]
      [("GET", [.seq (.ch '/') (.seq (.ch 'y') (.seq .dollar .eps))])]).matchRoute
        "GET" "/nope" = none :=
  ⟨c7_method_scoped_absence.1 (Route.make "/x" "h" "POST" (some "p")) "/x" rfl,
   c7_method_scoped_absence.2.1 routerEmpty "GET" "/nonexistent" rfl,
   c7_method_scoped_absence.2.2 _ "GET" "/nope" (by decide)⟩

/-- C1: the most recently registered route wins.  If routes A and B have the
same method and both compiled templates match a path, then after
`register_all([A, B])` (which front-inserts each registration) `match`
scans front to back and returns B, not A. -/
theorem c1_last_registered_wins (A B : Route) (path : String) (ra rb : RE)
    (capsA capsB : Caps)
    (hm : A.method = B.method) (hn : A.name ≠ B.name)
    (hpa : reParse (compileRouteTemplate A.template) = some ra)
    (hpb : reParse (compileRouteTemplate B.template) = some rb)
    (_hma : reMatchDict ra path = some capsA)
    (hmb : reMatchDict rb path = some capsB) :
    (addRoutes [.route A, .route B] "" routerEmpty).2 = none ∧
    (addRoutes [.route A, .route B] "" routerEmpty).1.matchRoute B.method path =
      some (B, capsB) := by
  have hR : addRoutes [.route A, .route B] "" routerEmpty =
      (Router.mk [(A.name, A), (B.name, B)] [(B.method, [B, A])] [(B.method, [rb, ra])],
        none) := by
    simp only [addRoutes, addRoute, routerEmpty, lookupName, string_empty_append, hpa, hpb,
      List.nil_append, hm]
    simp [lookupName, hn, insertFront]
  rw [hR]
  refine ⟨rfl, ?_⟩
  simp [Router.matchRoute, lookupListD, findMatch, hmb]

theorem c1_witness :
    (addRoutes [.route (Route.make "/x" "handler_a" "GET" (some "a")),
                .route (Route.make "/x" "handler_b" "GET" (some "b"))] "" routerEmpty).2 =
      none ∧
    (addRoutes [.route (Route.make "/x" "handler_a" "GET" (some "a")),
                .route (Route.make "/x" "handler_b" "GET" (some "b"))] "" routerEmpty).1.matchRoute
        "GET" "/x" = some (Route.make "/x" "handler_b" "GET" (some "b"), []) :=
  c1_last_registered_wins
    (Route.make "/x" "handler_a" "GET" (some "a"))
    (Route.make "/x" "handler_b" "GET" (some "b")) "/x"
    (.seq (.ch '/') (.seq (.ch 'x') (.seq .dollar .eps)))
    (.seq (.ch '/') (.seq (.ch 'x') (.seq .dollar .eps))) [] []
    rfl (by decide) rfl rfl rfl rfl

/-- C5 counterexample: the claim says the matcher never succeeds when the
path has extra characters (such as a trailing newline) beyond the template,
but the compiled pattern's `$` accepts a position just before a string-final
newline, so the matcher for the literal template `/a` accepts the distinct
path with a trailing newline. -/
theorem c5_trailing_newline_counterexample :
    templateTest "/a" "/a\n" = some [] ∧ ("/a\n" : String) ≠ "/a" := by decide


/-- C6 counterexample: the claim says a literal (non-placeholder) segment
matches only character-for-character equal text even when it contains
pattern metacharacters, but `_compile_route_template` embeds segments
unescaped, so in `/a.b` the `.` acts as the any-character pattern and the
matcher accepts the distinct path `/axb`. -/
theorem c6_metachar_counterexample :
    templateTest "/a.b" "/axb" = some [] ∧ ("/axb" : String) ≠ "/a.b" := by decide


/-- Length of the longest slash-free prefix: how far the greedy `[^/]+` of a
placeholder can reach. -/
def slashFreeLen (l : List Char) : Nat :=
  (l.takeWhile (fun c => !(List.contains ['/'] c))).length

lemma pSlash_true (c : Char) : (!(List.contains ['/'] c)) = true ↔ c ≠ '/' := by
  simp [List.contains]

lemma pSlash_false (c : Char) : (!(List.contains ['/'] c)) = false ↔ c = '/' := by
  rw [← Bool.not_eq_true, pSlash_true]
  simp

lemma slashFreeLen_eq_length (l : List Char) (h : '/' ∉ l) : slashFreeLen l = l.length := by
  rw [slashFreeLen, List.takeWhile_eq_self_iff.mpr]
  intro x hx
  exact (pSlash_true x).mpr (fun he => h (he ▸ hx))

lemma drop_length_takeWhile (p : Char → Bool) (l : List Char) :
    l.drop (l.takeWhile p).length = l.dropWhile p := by
  induction l with
  | nil => rfl
  | cons a t ih =>
    by_cases h : p a
    · simp [List.takeWhile_cons, List.dropWhile_cons, h, ih]
    · simp [List.takeWhile_cons, List.dropWhile_cons, h]

lemma slash_mem_drop_slashFreeLen (l : List Char) (h : '/' ∈ l) :
    '/' ∈ l.drop (slashFreeLen l) := by
  rw [slashFreeLen, drop_length_takeWhile]
  have hne : l.dropWhile (fun c => !(List.contains ['/'] c)) ≠ [] := by
    intro h0
    exact ((pSlash_true '/').mp (List.dropWhile_eq_nil_iff.mp h0 '/' h)) rfl
  have hh := List.head_dropWhile_not (fun c => !(List.contains ['/'] c)) l hne
  have heq : (l.dropWhile (fun c => !(List.contains ['/'] c))).head hne = '/' :=
    (pSlash_false _).mp hh
  have hmem := List.head_mem hne
  rwa [heq] at hmem

lemma flatMap_eq_nil_of (f : Nat → List (Nat × Caps)) (xs : List Nat)
    (h : ∀ x ∈ xs, f x = []) : xs.flatMap f = [] := by
  induction xs with
  | nil => rfl
  | cons a t ih =>
    rw [List.flatMap_cons, h a (List.mem_cons_self a t), List.nil_append]
    exact ih fun x hx => h x (List.mem_cons_of_mem _ hx)

lemma flatMap_map_comm {α β γ : Type} (g : α → β) (f : β → List γ) (xs : List α) :
    (xs.map g).flatMap f = xs.flatMap (fun x => f (g x)) := by
  induction xs with
  | nil => rfl
  | cons a t ih => simp [List.flatMap_cons, ih]

lemma firstCaps_map_shift (k : Nat) (rs : List (Nat × Caps)) :
    firstCaps (rs.map (fun q => (k + q.1, q.2))) = firstCaps rs := by
  cases rs <;> rfl

lemma firstCaps_flatMap_cons (f : Nat → List (Nat × Caps)) (x : Nat) (rest : List Nat)
    (y : Nat × Caps) (h : f x = [y]) : firstCaps ((x :: rest).flatMap f) = some y.2 := by
  rw [List.flatMap_cons, h]
  rfl

lemma mAll_seq_eps (a : RE) (l : List Char) (caps : Caps) :
    mAll (.seq a .eps) l caps = mAll a l caps := by
  show (mAll a l caps).flatMap
      (fun p => (mAll .eps (l.drop p.1) p.2).map fun q => (p.1 + q.1, q.2)) = mAll a l caps
  generalize mAll a l caps = rs
  induction rs with
  | nil => rfl
  | cons p rest ih => simp [mAll, List.flatMap_cons, ih]

lemma mAll_dollar_eps (l : List Char) (caps : Caps) :
    mAll (.seq .dollar .eps) l caps = if l = [] ∨ l = ['\n'] then [(0, caps)] else [] := by
  by_cases h : l = [] ∨ l = ['\n'] <;> simp [mAll, h]

lemma firstCaps_seq_ch_cons (c : Char) (b : RE) (t : List Char) (caps : Caps) :
    firstCaps (mAll (.seq (.ch c) b) (c :: t) caps) = firstCaps (mAll b t caps) := by
  have h : mAll (.seq (.ch c) b) (c :: t) caps =
      (mAll b t caps).map fun q => (1 + q.1, q.2) := by
    simp [mAll]
  rw [h, firstCaps_map_shift]

lemma c4aux (l : List Char) :
    firstCaps (mAll (.seq (.group "name" (.seq (.plusNcls ['/']) .eps)) (.seq .dollar .eps))
        l []) =
      if l ≠ [] ∧ '/' ∉ l then some [("name", String.mk l)] else none := by
  have hgrp : mAll (.group "name" (.seq (.plusNcls ['/']) .eps)) l [] =
      (List.range (slashFreeLen l)).map
        (fun i => (slashFreeLen l - i,
          [("name", String.mk (l.take (slashFreeLen l - i)))])) := by
    show (mAll (.seq (.plusNcls ['/']) .eps) l []).map
        (fun p => (p.1, setCap p.2 "name" (String.mk (l.take p.1)))) = _
    rw [mAll_seq_eps]
    show ((List.range (slashFreeLen l)).map (fun i => (slashFreeLen l - i, ([] : Caps)))).map
        (fun p => (p.1, setCap p.2 "name" (String.mk (l.take p.1)))) = _
    rw [List.map_map]
    rfl
  have hexp : mAll (.seq (.group "name" (.seq (.plusNcls ['/']) .eps)) (.seq .dollar .eps))
      l [] =
      (List.range (slashFreeLen l)).flatMap
        (fun i => if l.drop (slashFreeLen l - i) = [] ∨ l.drop (slashFreeLen l - i) = ['\n']
          then [(slashFreeLen l - i, [("name", String.mk (l.take (slashFreeLen l - i)))])]
          else []) := by
    show (mAll (.group "name" (.seq (.plusNcls ['/']) .eps)) l []).flatMap
        (fun p => (mAll (.seq .dollar .eps) (l.drop p.1) p.2).map fun q => (p.1 + q.1, q.2)) = _
    rw [hgrp, flatMap_map_comm]
    refine congrArg _ (funext fun i => ?_)
    rw [mAll_dollar_eps]
    by_cases hc : l.drop (slashFreeLen l - i) = [] ∨ l.drop (slashFreeLen l - i) = ['\n']
    · rw [if_pos hc, if_pos hc]
      rfl
    · rw [if_neg hc, if_neg hc]
      rfl
  rcases em ('/' ∈ l) with hs | hs
  · have hnil : (List.range (slashFreeLen l)).flatMap
        (fun i => if l.drop (slashFreeLen l - i) = [] ∨ l.drop (slashFreeLen l - i) = ['\n']
          then [(slashFreeLen l - i, [("name", String.mk (l.take (slashFreeLen l - i)))])]
          else []) = [] := by
      refine flatMap_eq_nil_of _ _ (fun i _ => ?_)
      have hmem : '/' ∈ l.drop (slashFreeLen l - i) := by
        have h1 : '/' ∈ l.drop (slashFreeLen l) := slash_mem_drop_slashFreeLen l hs
        have h2 : l.drop (slashFreeLen l) =
            (l.drop (slashFreeLen l - i)).drop (slashFreeLen l - (slashFreeLen l - i)) := by
          rw [List.drop_drop]
          congr 1
          omega
        rw [h2] at h1
        exact List.mem_of_mem_drop h1
      have hcond : ¬(l.drop (slashFreeLen l - i) = [] ∨
          l.drop (slashFreeLen l - i) = ['\n']) := by
        rintro (h0 | h0) <;> rw [h0] at hmem <;> simp at hmem
      rw [if_neg hcond]
    rw [hexp, hnil, if_neg (fun hc => hc.2 hs)]
    rfl
  · rcases l with _ | ⟨a, t⟩
    · rw [hexp, if_neg (fun hc => hc.1 rfl)]
      rfl
    · have hm : slashFreeLen (a :: t) = t.length + 1 := by
        rw [slashFreeLen_eq_length _ hs]
        rfl
      rw [hexp, hm, List.range_succ_eq_map]
      rw [firstCaps_flatMap_cons _ 0 _ (t.length + 1, [("name", String.mk (a :: t))]) ?_]
      · rw [if_pos ⟨List.cons_ne_nil a t, hs⟩]
      · have h1 : (a :: t).drop (t.length + 1 - 0) = [] := by
          show (a :: t).drop ((a :: t).length) = []
          exact List.drop_length _
        have h2 : (a :: t).take (t.length + 1 - 0) = a :: t := by
          show (a :: t).take ((a :: t).length) = a :: t
          exact List.take_length _
        show (if (a :: t).drop (t.length + 1 - 0) = [] ∨
              (a :: t).drop (t.length + 1 - 0) = ['\n']
            then [(t.length + 1 - 0,
              [("name", String.mk ((a :: t).take (t.length + 1 - 0)))])]
            else []) = [(t.length + 1, [("name", String.mk (a :: t))])]
        rw [if_pos (Or.inl h1), h2]
        rfl

/-- C4: a placeholder segment matches exactly the non-empty strings with no
path separator: for the template `/items/\x7bname\x7d`, a path
`/items/` ++ x matches precisely when x is non-empty and slash-free, and
then captures `name = x` — so `/items/a/b` and `/items/` are rejected and
`/items/a-b` captures `a-b`. -/
theorem c4_placeholder_segment_semantics (x : String) :
    templateTest "/items/\x7bname\x7d" ("/items/" ++ x) =
      if x.data ≠ [] ∧ '/' ∉ x.data then some [("name", x)] else none := by
  have hp : reParse (compileRouteTemplate "/items/\x7bname\x7d") =
      some (.seq (.ch '/') (.seq (.ch 'i') (.seq (.ch 't') (.seq (.ch 'e') (.seq (.ch 'm')
        (.seq (.ch 's') (.seq (.ch '/') (.seq (.group "name" (.seq (.plusNcls ['/']) .eps))
          (.seq .dollar .eps))))))))) := rfl
  have hdata : ("/items/" ++ x).data =
      '/' :: 'i' :: 't' :: 'e' :: 'm' :: 's' :: '/' :: x.data := by
    rw [String.data_append]
    rfl
  simp only [templateTest, hp, reMatchDict_eq_firstCaps, hdata]
  simp only [firstCaps_seq_ch_cons]
  rw [c4aux, stringMk_data]

lemma snoc_ne_parts (u v : List Char) (x y : Char) (h : u ++ [x] = v ++ [y]) : x = y := by
  have h2 := congrArg List.getLast? h
  simpa using h2

lemma suffix_snoc_last (s l : List Char) (x y : Char) (h : s ++ [x] <:+ l ++ [y]) : x = y := by
  obtain ⟨pre, hp⟩ := h
  rw [← List.append_assoc] at hp
  exact snoc_ne_parts _ _ _ _ hp

lemma suffix_snoc_cases (s l : List Char) (x : Char) (h : s <:+ l ++ [x]) :
    s = [] ∨ ∃ s₁, s = s₁ ++ [x] := by
  rcases List.eq_nil_or_concat s with rfl | ⟨s₁, y, rfl⟩
  · exact Or.inl rfl
  · rw [List.concat_eq_append] at h ⊢
    exact Or.inr ⟨s₁, by rw [suffix_snoc_last s₁ l y x h]⟩

lemma parseSeq_nil_inv (fuel : Nat) (r : RE) (rem : List Char)
    (h : parseSeq fuel [] = some (r, rem)) : r = .eps ∧ rem = [] := by
  cases fuel with
  | zero => simp [parseSeq] at h
  | succ f =>
    simp [parseSeq] at h
    exact ⟨h.1.symm, h.2⟩

lemma anchored_seq (a b : RE) (h : anchored b = true) : anchored (.seq a b) = true := by
  simp [anchored, h]

lemma anchored_mAll (r : RE) (hr : anchored r = true) :
    ∀ (l : List Char) (caps : Caps) (p : Nat × Caps), p ∈ mAll r l caps →
      l.drop p.1 = [] ∨ l.drop p.1 = ['\n'] := by
  induction r with
  | dollar =>
    intro l caps p hp
    by_cases hl : l = [] ∨ l = ['\n']
    · simp only [mAll, if_pos hl, List.mem_singleton] at hp
      subst hp
      simpa using hl
    · simp [mAll, hl] at hp
  | group g a iha =>
    intro l caps p hp
    simp only [mAll, List.mem_map] at hp
    obtain ⟨q, hq, rfl⟩ := hp
    exact iha (by simpa [anchored] using hr) l caps q hq
  | seq a b iha ihb =>
    intro l caps p hp
    simp only [mAll, List.mem_flatMap, List.mem_map] at hp
    obtain ⟨q, hq, q2, hq2, rfl⟩ := hp
    have hr' : anchored b = true ∨ (anchored a = true ∧ isEpsRE b = true) := by
      simpa [anchored, Bool.or_eq_true, Bool.and_eq_true] using hr
    rcases hr' with hb | ⟨ha, hbe⟩
    · have h2 := ihb hb (l.drop q.1) q.2 q2 hq2
      rw [List.drop_drop] at h2
      exact h2
    · cases b with
      | eps =>
        simp only [mAll, List.mem_singleton] at hq2
        subst hq2
        simpa using iha ha l caps q hq
      | _ => simp [isEpsRE] at hbe
  | eps => intro l caps p hp; simp [anchored] at hr
  | ch c => intro l caps p hp; simp [anchored] at hr
  | dot => intro l caps p hp; simp [anchored] at hr
  | ncls cs => intro l caps p hp; simp [anchored] at hr
  | plusNcls cs => intro l caps p hp; simp [anchored] at hr

lemma splitSlash_ne_nil (l : List Char) : splitSlash l ≠ [] := by
  cases l with
  | nil => simp [splitSlash]
  | cons c rest =>
    simp only [splitSlash]
    cases splitSlash rest with
    | nil => simp
    | cons s ss => by_cases hc : c = '/' <;> simp [hc]

lemma splitSlash_mem_chars : ∀ (l : List Char) (s : List Char), s ∈ splitSlash l →
    ∀ c ∈ s, c ∈ l := by
  intro l
  induction l with
  | nil =>
    intro s hs c hc
    simp [splitSlash] at hs
    subst hs
    simp at hc
  | cons d rest ih =>
    intro s hs c hc
    rcases hss : splitSlash rest with _ | ⟨s0, ss0⟩
    · exact absurd hss (splitSlash_ne_nil rest)
    · rw [show splitSlash (d :: rest) = if d = '/' then [] :: s0 :: ss0 else (d :: s0) :: ss0
          from by simp [splitSlash, hss]] at hs
      by_cases hd : d = '/'
      · rw [if_pos hd] at hs
        rcases List.mem_cons.mp hs with hs2 | hs2
        · subst hs2; simp at hc
        · exact List.mem_cons_of_mem d (ih s (by rw [hss]; exact hs2) c hc)
      · rw [if_neg hd] at hs
        rcases List.mem_cons.mp hs with hs2 | hs2
        · subst hs2
          rcases List.mem_cons.mp hc with hc2 | hc2
          · simp [hc2]
          · exact List.mem_cons_of_mem d
              (ih s0 (by rw [hss]; exact List.mem_cons_self s0 ss0) c hc2)
        · exact List.mem_cons_of_mem d
            (ih s (by rw [hss]; exact List.mem_cons_of_mem s0 hs2) c hc)

lemma segPattern_literal (s : List Char)
    (h : ¬(s.head? = some '\x7b' ∧ s.getLast? = some '\x7d')) :
    segPattern s = '/' :: s := by
  rw [segPattern, if_neg h]

lemma splitSlash_rejoin : ∀ (l : List Char), '\x7b' ∉ l →
    (splitSlash l).flatMap segPattern = '/' :: l := by
  intro l
  induction l with
  | nil =>
    intro _
    simp [splitSlash, segPattern]
  | cons c rest ih =>
    intro hl
    have hrest : '\x7b' ∉ rest := fun hh => hl (List.mem_cons_of_mem c hh)
    have hc : c ≠ '\x7b' := fun hh => hl (by simp [hh])
    rcases hss : splitSlash rest with _ | ⟨s0, ss0⟩
    · exact absurd hss (splitSlash_ne_nil rest)
    · have hIH : segPattern s0 ++ ss0.flatMap segPattern = '/' :: rest := by
        have h2 := ih hrest
        rw [hss] at h2
        simpa [List.flatMap_cons] using h2
      have hs0lit : segPattern s0 = '/' :: s0 := by
        apply segPattern_literal
        rintro ⟨h1, -⟩
        rcases s0 with _ | ⟨a, s0'⟩
        · simp at h1
        · simp only [List.head?_cons, Option.some.injEq] at h1
          subst h1
          exact hrest (splitSlash_mem_chars rest _ (by rw [hss]; exact List.mem_cons_self _ _)
            _ (List.mem_cons_self _ _))
      rw [show splitSlash (c :: rest) = if c = '/' then [] :: s0 :: ss0 else (c :: s0) :: ss0
          from by simp [splitSlash, hss]]
      by_cases hcs : c = '/'
      · rw [if_pos hcs]
        have hseg0 : segPattern ([] : List Char) = ['/'] := by simp [segPattern]
        simp only [List.flatMap_cons, hseg0, hIH, hcs]
        rfl
      · rw [if_neg hcs]
        have hhd : segPattern (c :: s0) = '/' :: c :: s0 := by
          apply segPattern_literal
          rintro ⟨h1, -⟩
          simp only [List.head?_cons, Option.some.injEq] at h1
          exact hc h1
        have key : s0 ++ ss0.flatMap segPattern = rest := by
          have h2 := hIH
          rw [hs0lit] at h2
          simpa using h2
        simp only [List.flatMap_cons, hhd, List.cons_append, List.append_assoc]
        simp [key]

lemma chainOf_groupNames : ∀ (l : List Char), groupNames (chainOf l) = [] := by
  intro l
  induction l with
  | nil => rfl
  | cons c seg ih =>
    by_cases hc : c = '.' <;> simp [chainOf, atomOf, hc, groupNames, ih]

lemma firstCaps_seq_dot_cons (b : RE) (x : Char) (t : List Char) (caps : Caps)
    (hx : x ≠ '\n') :
    firstCaps (mAll (.seq .dot b) (x :: t) caps) = firstCaps (mAll b t caps) := by
  have h : mAll (.seq .dot b) (x :: t) caps =
      (mAll b t caps).map fun q => (1 + q.1, q.2) := by
    simp [mAll, hx]
  rw [h, firstCaps_map_shift]

lemma chain_match : ∀ (seg l : List Char),
    firstCaps (mAll (chainOf seg) l []) = if fitsFull seg l then some [] else none := by
  intro seg
  induction seg with
  | nil =>
    intro l
    show firstCaps (mAll (.seq .dollar .eps) l []) = _
    rw [mAll_dollar_eps]
    by_cases h : l = [] ∨ l = ['\n']
    · rw [if_pos h]
      have hf : fitsFull [] l = true := by
        rcases h with rfl | rfl <;> simp [fitsFull]
      rw [if_pos hf]
      rfl
    · rw [if_neg h]
      push_neg at h
      have hf : fitsFull [] l = false := by
        simp only [fitsFull, Bool.or_eq_false_iff]
        constructor
        · simpa [List.isEmpty_iff] using h.1
        · simpa using h.2
      rw [hf]
      rfl
  | cons c seg ih =>
    intro l
    show firstCaps (mAll (.seq (atomOf c) (chainOf seg)) l []) = _
    rcases l with _ | ⟨x, t⟩
    · have h0 : mAll (.seq (atomOf c) (chainOf seg)) [] [] = [] := by
        by_cases hc : c = '.' <;> simp [atomOf, hc, mAll]
      rw [h0]
      have : fitsFull (c :: seg) [] = false := rfl
      rw [this]
      rfl
    · by_cases hc : c = '.'
      · subst hc
        by_cases hx : x = '\n'
        · subst hx
          have h0 : mAll (.seq (atomOf '.') (chainOf seg)) ('\n' :: t) [] = [] := by
            simp [atomOf, mAll]
          rw [h0]
          have hf : fitsFull ('.' :: seg) ('\n' :: t) = false := by
            simp [fitsFull]
          rw [hf]
          rfl
        · rw [show atomOf '.' = RE.dot from rfl, firstCaps_seq_dot_cons _ _ _ _ hx, ih]
          have hf : fitsFull ('.' :: seg) (x :: t) = fitsFull seg t := by
            simp [fitsFull, hx]
          rw [hf]
      · by_cases hxc : x = c
        · subst hxc
          rw [show atomOf x = RE.ch x from by simp [atomOf, hc],
            firstCaps_seq_ch_cons, ih]
          have hf : fitsFull (x :: seg) (x :: t) = fitsFull seg t := by
            simp [fitsFull, hc]
          rw [hf]
        · have h0 : mAll (.seq (atomOf c) (chainOf seg)) (x :: t) [] = [] := by
            simp [atomOf, hc, mAll, hxc]
          rw [h0]
          have hf : fitsFull (c :: seg) (x :: t) = false := by
            simp [fitsFull, hc]
            intro h2
            exact absurd h2 hxc
          rw [hf]
          rfl


lemma plainOrDot_ne (c : Char) (h : plainAtomChar c = true) :
    c ≠ '(' ∧ c ≠ ')' ∧ c ≠ '[' ∧ c ≠ ']' ∧ c ≠ '.' ∧ c ≠ '$' ∧ c ≠ '^' ∧ c ≠ '\\' ∧
    c ≠ '\x7b' ∧ c ≠ '\x7d' ∧ c ≠ '|' ∧ c ≠ '+' ∧ c ≠ '*' ∧ c ≠ '?' := by
  simp only [plainAtomChar, Bool.not_eq_true', Bool.or_eq_false_iff, beq_eq_false_iff_ne,
    ne_eq] at h
  tauto

lemma parseSeq_cons_plain (f : Nat) (c : Char) (rest : List Char)
    (h : plainAtomChar c = true) :
    parseSeq (f + 1) (c :: rest) =
      match rest with
      | '+' :: _ => none
      | '*' :: _ => none
      | '?' :: _ => none
      | _ =>
        match parseSeq f rest with
        | some (tl, rem) => some (.seq (.ch c) tl, rem)
        | none => none := by
  obtain ⟨h1, h2, h3, h4, h5, h6, h7, h8, h9, h10, h11, h12, h13, h14⟩ := plainOrDot_ne c h
  simp [parseSeq, h1, h2, h3, h4, h5, h6, h7, h8, h9, h10, h11, h12, h13, h14]

lemma parseSeq_cons_dot (f : Nat) (rest : List Char) :
    parseSeq (f + 1) ('.' :: rest) =
      match rest with
      | '+' :: _ => none
      | '*' :: _ => none
      | '?' :: _ => none
      | _ =>
        match parseSeq f rest with
        | some (tl, rem) => some (.seq .dot tl, rem)
        | none => none := by
  simp [parseSeq]

lemma plainOrDot_not_quant (d : Char) (h : plainOrDot d = true) :
    d ≠ '+' ∧ d ≠ '*' ∧ d ≠ '?' := by
  rcases Bool.or_eq_true_iff.mp h with h1 | h1
  · have h2 := plainOrDot_ne d h1
    tauto
  · have h2 : d = '.' := by simpa using h1
    subst h2
    refine ⟨by decide, by decide, by decide⟩

lemma plainOrDot_plain (c : Char) (h : plainOrDot c = true) (hdot : c ≠ '.') :
    plainAtomChar c = true := by
  rcases Bool.or_eq_true_iff.mp h with h1 | h1
  · exact h1
  · exact absurd (by simpa using h1) hdot

lemma parseSeq_chainOf : ∀ (seg : List Char) (fuel : Nat),
    (∀ c ∈ seg, plainOrDot c = true) → seg.length + 2 ≤ fuel →
    parseSeq fuel (seg ++ ['$']) = some (chainOf seg, []) := by
  intro seg
  induction seg with
  | nil =>
    intro fuel _ hf
    obtain ⟨f, rfl⟩ : ∃ f, fuel = f + 2 := ⟨fuel - 2, by omega⟩
    simp [parseSeq, chainOf]
  | cons c seg ih =>
    intro fuel hpl hf
    obtain ⟨f, rfl⟩ : ∃ f, fuel = f + 1 := ⟨fuel - 1, by omega⟩
    have hc := hpl c (List.mem_cons_self c seg)
    have hrec : parseSeq f (seg ++ ['$']) = some (chainOf seg, []) := by
      refine ih f (fun d hd => hpl d (List.mem_cons_of_mem c hd)) ?_
      simp only [List.length_cons] at hf
      omega
    by_cases hdot : c = '.'
    · subst hdot
      rw [List.cons_append, parseSeq_cons_dot]
      rcases seg with _ | ⟨d, seg'⟩
      · simp only [List.nil_append] at hrec
        simp [hrec, chainOf, atomOf]
      · have hd3 := plainOrDot_not_quant d (hpl d (by simp))
        simp only [List.cons_append] at hrec
        simp [hd3.1, hd3.2.1, hd3.2.2, hrec, chainOf, atomOf]
    · have hplain := plainOrDot_plain c hc hdot
      rw [List.cons_append, parseSeq_cons_plain f c _ hplain]
      rcases seg with _ | ⟨d, seg'⟩
      · simp only [List.nil_append] at hrec
        simp [hrec, chainOf, atomOf, hdot]
      · have hd3 := plainOrDot_not_quant d (hpl d (by simp))
        simp only [List.cons_append] at hrec
        simp [hd3.1, hd3.2.1, hd3.2.2, hrec, chainOf, atomOf, hdot]

lemma compile_plain (seg : List Char) (hb : '\x7b' ∉ seg) :
    compileRouteTemplate (String.mk ('/' :: seg)) = String.mk ('^' :: '/' :: seg ++ ['$']) := by
  have hre := splitSlash_rejoin seg hb
  rcases hss : splitSlash seg with _ | ⟨s0, ss0⟩
  · exact absurd hss (splitSlash_ne_nil seg)
  · simp only [compileRouteTemplate]
    congr 1
    rw [show splitSlash ('/' :: seg) = [] :: s0 :: ss0 from by simp [splitSlash, hss]]
    rw [hss] at hre
    simp only [List.tail_cons]
    rw [hre]

lemma reParse_chain (seg : List Char) (hpl : ∀ c ∈ seg, plainOrDot c = true) :
    reParse (compileRouteTemplate (String.mk ('/' :: seg))) = some (chainOf ('/' :: seg)) := by
  have hb : '\x7b' ∉ seg := fun hm => absurd (hpl _ hm) (by decide)
  rw [compile_plain seg hb]
  have hpl2 : ∀ c ∈ '/' :: seg, plainOrDot c = true := by
    intro c hc
    rcases List.mem_cons.mp hc with rfl | hc2
    · decide
    · exact hpl c hc2
  have hps := parseSeq_chainOf ('/' :: seg) (seg.length + 1 + 1 + 1 + 1) hpl2
    (by simp only [List.length_cons]; omega)
  rw [List.cons_append] at hps
  simp only [reParse]
  simp [hps, chainOf_groupNames, hasDup]

lemma cons_snoc_cases (y : Char) (t l : List Char) (x : Char) (h : y :: t = l ++ [x]) :
    (t = [] ∧ y = x) ∨ ∃ l₂, t = l₂ ++ [x] := by
  rcases l with _ | ⟨z, l'⟩
  · simp at h
    exact Or.inl ⟨h.2, h.1⟩
  · simp at h
    exact Or.inr ⟨l', h.2⟩

lemma singleton_suffix_snoc (y : Char) (l : List Char) (x : Char)
    (h : [y] <:+ l ++ [x]) : y = x := by
  have h2 : [] ++ [y] <:+ l ++ [x] := by simpa using h
  exact suffix_snoc_last [] l y x h2

lemma parseSeq_suffix_anchored : ∀ (fuel : Nat) (l : List Char) (r : RE) (rem : List Char),
    parseSeq fuel l = some (r, rem) →
    rem <:+ l ∧ (∀ l₀, l = l₀ ++ ['$'] → rem = [] → anchored r = true) := by
  intro fuel
  induction fuel with
  | zero => intro l r rem h; simp [parseSeq] at h
  | succ f ih =>
    intro l r rem h
    rcases l with _ | ⟨c, rest⟩
    · obtain ⟨rfl, rfl⟩ := parseSeq_nil_inv _ _ _ h
      refine ⟨List.nil_suffix, fun l₀ hl _ => ?_⟩
      simp at hl
    · by_cases hrp : c = ')'
      · subst hrp
        simp only [parseSeq] at h
        obtain ⟨rfl, rfl⟩ : RE.eps = r ∧ ')' :: rest = rem := by simpa using h
        refine ⟨List.suffix_refl _, fun l₀ hl hrem => ?_⟩
        simp at hrem
      · simp only [parseSeq, hrp] at h
        split at h
        · exact absurd h (by simp)
        · rename_i a rest' heqAtom
          have hatom : rest' <:+ rest ∧
              (∀ l₀, c :: rest = l₀ ++ ['$'] → rest' = [] → a = RE.dollar) := by
            split at heqAtom
            · -- c = '(' : group atom
              split at heqAtom
              · -- rest = '?' :: 'P' :: '<' :: rest2
                rename_i rest2
                split at heqAtom
                · -- name well-formed
                  split at heqAtom
                  · -- rest3 = '>' :: rest4
                    rename_i rest4 heq3
                    split at heqAtom
                    · -- parseSeq f rest4 = some (inner, ')' :: rest5)
                      rename_i inner rest5 heqInner
                      rw [Option.some.injEq, Prod.mk.injEq] at heqAtom
                      obtain ⟨rfl, rfl⟩ := heqAtom
                      have h1 : (')' :: rest5) <:+ rest4 :=
                        (ih rest4 inner (')' :: rest5) heqInner).1
                      have h3 : ('>' :: rest4) <:+ rest2 := by
                        rw [← heq3]
                        exact List.drop_suffix _ rest2
                      have h4 : rest2 <:+ '?' :: 'P' :: '<' :: rest2 :=
                        (List.suffix_cons '<' rest2).trans
                          ((List.suffix_cons 'P' _).trans (List.suffix_cons '?' _))
                      have hfull : (')' :: rest5) <:+ '?' :: 'P' :: '<' :: rest2 :=
                        (h1.trans ((List.suffix_cons '>' rest4).trans h3)).trans h4
                      refine ⟨(List.suffix_cons ')' rest5).trans hfull, ?_⟩
                      intro l₀ hl hre
                      subst hre
                      have h5 : [')'] <:+ l₀ ++ ['$'] := by
                        rw [← hl]
                        exact hfull.trans (List.suffix_cons c _)
                      exact absurd (singleton_suffix_snoc ')' l₀ '$' h5) (by decide)
                    · exact absurd heqAtom (by simp)
                  · exact absurd heqAtom (by simp)
                · exact absurd heqAtom (by simp)
              · exact absurd heqAtom (by simp)
            · -- not a group
              split at heqAtom
              · -- c = '[' : class atom
                split at heqAtom
                · -- rest = '^' :: rest2
                  rename_i rest2
                  split at heqAtom
                  · -- class well-formed
                    split at heqAtom
                    · -- rest3 = ']' :: rest4
                      rename_i rest4 heq3
                      rw [Option.some.injEq, Prod.mk.injEq] at heqAtom
                      obtain ⟨rfl, rfl⟩ := heqAtom
                      have h3 : (']' :: rest4) <:+ rest2 := by
                        rw [← heq3]
                        exact List.drop_suffix _ rest2
                      have hfull : (']' :: rest4) <:+ '^' :: rest2 :=
                        h3.trans (List.suffix_cons '^' rest2)
                      refine ⟨(List.suffix_cons ']' rest4).trans hfull, ?_⟩
                      intro l₀ hl hre
                      subst hre
                      have h5 : [']'] <:+ l₀ ++ ['$'] := by
                        rw [← hl]
                        exact hfull.trans (List.suffix_cons c _)
                      exact absurd (singleton_suffix_snoc ']' l₀ '$' h5) (by decide)
                    · exact absurd heqAtom (by simp)
                  · exact absurd heqAtom (by simp)
                · exact absurd heqAtom (by simp)
              · -- not a class
                split at heqAtom
                · -- c = '.' : dot atom
                  rename_i hdot
                  rw [Option.some.injEq, Prod.mk.injEq] at heqAtom
                  obtain ⟨rfl, rfl⟩ := heqAtom
                  refine ⟨List.suffix_refl _, ?_⟩
                  intro l₀ hl hre
                  subst hre
                  subst hdot
                  have h5 : '.' = '$' := snoc_ne_parts [] l₀ '.' '$' (by simpa using hl)
                  exact absurd h5 (by decide)
                · -- not a dot
                  split at heqAtom
                  · -- c = '$' : dollar atom
                    rw [Option.some.injEq, Prod.mk.injEq] at heqAtom
                    obtain ⟨rfl, rfl⟩ := heqAtom
                    exact ⟨List.suffix_refl _, fun _ _ _ => rfl⟩
                  · -- not a dollar
                    split at heqAtom
                    · -- banned characters : none
                      exact absurd heqAtom (by simp)
                    · -- plain character atom
                      rename_i hn4 hn5
                      rw [Option.some.injEq, Prod.mk.injEq] at heqAtom
                      obtain ⟨rfl, rfl⟩ := heqAtom
                      refine ⟨List.suffix_refl _, ?_⟩
                      intro l₀ hl hre
                      subst hre
                      have h5 : c = '$' := snoc_ne_parts [] l₀ c '$' (by simpa using hl)
                      exact absurd h5 hn4
          obtain ⟨hsuf, hdolfact⟩ := hatom
          split at h
          · -- rest' = '+' :: rest2 : quantifier on a negated class
            rename_i rest2
            split at h
            · -- a = ncls cs
              rename_i cs
              split at h
              · -- parseSeq f rest2 = some (tl, rem2)
                rename_i tl rem2 heqRec
                rw [Option.some.injEq, Prod.mk.injEq] at h
                obtain ⟨rfl, rfl⟩ := h
                obtain ⟨hs2, ha2⟩ := ih rest2 tl rem2 heqRec
                refine ⟨(hs2.trans ((List.suffix_cons '+' rest2).trans hsuf)).trans
                  (List.suffix_cons c rest), ?_⟩
                intro l₀ hl hrem
                have h3 : rest2 <:+ l₀ ++ ['$'] := by
                  rw [← hl]
                  exact ((List.suffix_cons '+' rest2).trans hsuf).trans (List.suffix_cons c rest)
                rcases suffix_snoc_cases rest2 l₀ '$' h3 with h4 | ⟨s₁, h4⟩
                · subst h4
                  have h5 : ['+'] <:+ l₀ ++ ['$'] := by
                    rw [← hl]
                    exact hsuf.trans (List.suffix_cons c rest)
                  exact absurd (singleton_suffix_snoc '+' l₀ '$' h5) (by decide)
                · exact anchored_seq _ _ (ha2 s₁ h4 hrem)
              · exact absurd h (by simp)
            · exact absurd h (by simp)
          · exact absurd h (by simp)
          · exact absurd h (by simp)
          · -- no quantifier: sequence with the rest of the pattern
            split at h
            · rename_i tl rem2 heqRec
              rw [Option.some.injEq, Prod.mk.injEq] at h
              obtain ⟨rfl, rfl⟩ := h
              obtain ⟨hs2, ha2⟩ := ih rest' tl rem2 heqRec
              refine ⟨(hs2.trans hsuf).trans (List.suffix_cons c rest), ?_⟩
              intro l₀ hl hrem
              have h3 : rest' <:+ l₀ ++ ['$'] := by
                rw [← hl]
                exact hsuf.trans (List.suffix_cons c rest)
              rcases suffix_snoc_cases rest' l₀ '$' h3 with h4 | ⟨s₁, h4⟩
              · have hdol := hdolfact l₀ hl h4
                subst hdol
                subst h4
                obtain ⟨rfl, rfl⟩ := parseSeq_nil_inv f tl rem2 heqRec
                decide
              · exact anchored_seq _ _ (ha2 s₁ h4 hrem)
            · exact absurd h (by simp)

lemma reParse_anchored (t : String) (r : RE)
    (h : reParse (compileRouteTemplate t) = some r) : anchored r = true := by
  have hdata : (compileRouteTemplate t).data =
      '^' :: ((splitSlash t.data).tail.flatMap segPattern ++ ['$']) := by
    simp [compileRouteTemplate]
  simp only [reParse, hdata] at h
  split at h
  · rename_i r' heqp
    split at h
    · exact absurd h (by simp)
    · have hr : r' = r := by simpa using h
      subst hr
      exact (parseSeq_suffix_anchored _ _ _ _ heqp).2 _ rfl rfl
  · exact absurd h (by simp)

/-- C5 amended: the compiled pattern of every route template is anchored at
both ends.  For every template whose compiled pattern the modelled engine
parses, every match of that pattern against a path consumes the entire path,
with one exception inherited from the engine's `$` anchor: a single
string-final newline may be left over.  So the matcher never succeeds on a
mere prefix of the path, and the only extra characters a path may carry
beyond the matched text is one trailing newline. -/
theorem c5_anchoring_amended (t path : String) (r : RE) (p : Nat × Caps)
    (hparse : reParse (compileRouteTemplate t) = some r)
    (hmem : p ∈ mAll r path.data []) :
    path.data.drop p.1 = [] ∨ path.data.drop p.1 = ['\n'] :=
  anchored_mAll r (reParse_anchored t r hparse) path.data [] p hmem

theorem c5_witness :
    ("/a\n" : String).data.drop 2 = [] ∨ ("/a\n" : String).data.drop 2 = ['\n'] :=
  c5_anchoring_amended "/a" "/a\n"
    (.seq (.ch '/') (.seq (.ch 'a') (.seq .dollar .eps))) (2, [])
    (by decide) (by decide)

/-- C6 amended: non-placeholder template text is embedded in the pattern
unescaped.  For every template starting with `/` whose remaining characters
are ordinary characters or the metacharacter `.`, the compiled matcher
accepts exactly the paths that agree with the template character by
character: an ordinary character matches only itself, while an unescaped `.`
keeps its pattern meaning and matches any single character except a newline
(and the final `$` tolerates one string-final newline).  In particular the
template `/a.b` also matches the path `/axb`. -/
theorem c6_literal_segment_amended (seg : List Char) (path : String)
    (hpl : ∀ c ∈ seg, plainOrDot c = true) :
    templateTest (String.mk ('/' :: seg)) path =
      if fitsFull ('/' :: seg) path.data then some [] else none := by
  simp only [templateTest, reParse_chain seg hpl]
  rw [reMatchDict_eq_firstCaps, chain_match]

theorem c6_witness :
    templateTest (String.mk ['/', 'a', '.', 'b']) "/axb" =
      if fitsFull ['/', 'a', '.', 'b'] "/axb".data then some [] else none :=
  c6_literal_segment_amended ['a', '.', 'b'] "/axb" (by decide)
